import Mathlib

/-!
Verification development for the PDF classification and reassembly pipeline
in `main.py` (PDF_insight).  Python strings are modelled as `List Char`,
PDF files as lists of pages (each page carrying its extracted text), and the
filesystem as a partial map from paths to PDF contents.  Fallible operations
return `Option`/`Except`; exact rational similarity scores replace the
floating-point scores of rapidfuzz.
-/

/-- Python strings are modelled as lists of characters. -/
abbrev Str := List Char

/-- A PDF page, identified by the text it yields under extraction. -/
abbrev Page := Str

/-- A PDF file is an ordered list of pages. -/
abbrev Pdf := List Page

/-- The filesystem: a partial map from paths to PDF contents.  `none` means
the path is absent or unreadable (read/parse error). -/
abbrev FS := Str → Option Pdf

/-- Write (create or overwrite) a file. -/
def fsWrite (fs : FS) (p : Str) (v : Pdf) : FS :=
  fun q => if q = p then some v else fs q

/-- Remove a file (`os.remove` on an existing file). -/
def fsErase (fs : FS) (p : Str) : FS :=
  fun q => if q = p then none else fs q

/-- Python truthiness of an optional string: `None` and `""` are falsy. -/
def pyFalsy (t : Option Str) : Bool :=
  match t with
  | none => true
  | some s => s.isEmpty

/-- Python `str()` applied to an optional string: `None` prints as "None". -/
def pyStr (t : Option Str) : Str :=
  match t with
  | none => "None".data
  | some s => s

/-- Whitespace as matched by Python's regex `\s` (ASCII part of the class). -/
def isPySpace (c : Char) : Bool :=
  c = ' ' ∨ c = '\t' ∨ c = '\n' ∨ c = '\x0d' ∨ c = '\x0b' ∨ c = '\x0c'

/-- Split a list at the last occurrence of `sep`: returns the part before it
and the part from the separator on (used for `os.path` computations). -/
def splitLast (sep : Char) : Str → Option (Str × Str)
  | [] => none
  | c :: cs =>
    match splitLast sep cs with
    | some (a, b) => some (c :: a, b)
    | none => if c = sep then some ([], c :: cs) else none

/-- Embedding of `os.path.splitext` (POSIX): split off the extension at the
last dot of the basename, unless every character before that dot is a dot. -/
def splitext (p : Str) : Str × Str :=
  let db : Str × Str :=
    match splitLast '/' p with
    | some (d, s) => (d ++ ['/'], s.tail)
    | none => ([], p)
  match splitLast '.' db.2 with
  | none => (p, [])
  | some (b, ext) => if b.any (fun c => c ≠ '.') then (db.1 ++ b, ext) else (p, [])

/-- Embedding of `os.path.dirname` (POSIX). -/
def dirname (p : Str) : Str :=
  match splitLast '/' p with
  | none => []
  | some (before, _) =>
    let head := before ++ ['/']
    if head.all (fun c => c = '/') then head
    else (before.reverse.dropWhile (fun c => c = '/')).reverse

/-- Embedding of `os.path.basename` (POSIX). -/
def basename (p : Str) : Str :=
  match splitLast '/' p with
  | none => p
  | some (_, b) => b.tail

/-- Embedding of `os.path.join` for one component (POSIX). -/
def path_join (d n : Str) : Str :=
  if n.head? = some '/' then n
  else if d = [] then n
  else if d.getLast? = some '/' then d ++ n
  else d ++ '/' :: n

/-- Decimal digit character (for Python `str()` of an integer). -/
def digitChar (d : Nat) : Char :=
  match d with
  | 0 => '0' | 1 => '1' | 2 => '2' | 3 => '3' | 4 => '4'
  | 5 => '5' | 6 => '6' | 7 => '7' | 8 => '8' | _ => '9'

/-- Fuelled decimal rendering of a natural number (most significant first). -/
def decDigits (fuel : Nat) (n : Nat) : Str :=
  match fuel with
  | 0 => []
  | f + 1 => if n < 10 then [digitChar n] else decDigits f (n / 10) ++ [digitChar (n % 10)]

/-- Python `str(n)` for a natural number. -/
def decRepr (n : Nat) : Str :=
  decDigits (n + 1) n

/-- Name of the single-page file written by the splitter:
`f"{os.path.splitext(pdf_path)[0]}_page_{i + 1}.pdf"` in `split_pdf_by_page`. -/
def pageName (p : Str) (i : Nat) : Str :=
  (splitext p).1 ++ "_page_".data ++ decRepr i ++ ".pdf".data

/-- Name of the OCR output file:
`f"{os.path.splitext(pdf_path)[0]}_searchable.pdf"` in `apply_ocr`. -/
def searchableName (p : Str) : Str :=
  (splitext p).1 ++ "_searchable.pdf".data

/-- Embedding of `extract_invoice_number`: first maximal run of decimal
digits in the folder name (`re.search(r"\d+", folder_name)`). -/
def extract_invoice_number (folder_name : Str) : Option Str :=
  let rest := folder_name.dropWhile (fun c => ¬ c.isDigit)
  if rest.isEmpty then none else some (rest.takeWhile Char.isDigit)

/-- Core of `clean_text`: `re.sub(r"\s{2,}", " ", text)`.  A maximal run of
two or more whitespace characters is replaced by a single space; an isolated
whitespace character is kept as it is. -/
def cleanSub : Str → Str
  | [] => []
  | [c] => [c]
  | c :: d :: tl =>
    if isPySpace c then
      if isPySpace d then ' ' :: cleanSub (tl.dropWhile isPySpace)
      else c :: cleanSub (d :: tl)
    else c :: cleanSub (d :: tl)
termination_by l => l.length
decreasing_by
  all_goals simp only [List.length_cons]
  · have h := (List.dropWhile_suffix (l := tl) isPySpace).sublist.length_le
    omega
  · omega
  · omega

/-- Embedding of `clean_text`: collapses whitespace runs, and returns the
empty string when the input is `None` (or empty, which Python treats as
falsy). -/
def clean_text (text : Option Str) : Str :=
  match text with
  | none => []
  | some s => if s.isEmpty then [] else cleanSub s

/-- Embedding of the match at one position of the pattern
`(TI|CC|RC)-(\d{5,15})` used by `extract_patient_id`: the greedy group 2
takes at most 15 digits and needs at least 5. -/
def patientIdAt (cs : Str) : Option Str :=
  match cs with
  | a :: b :: '-' :: rest =>
    if ([a, b] = ['T', 'I'] ∨ [a, b] = ['C', 'C'] ∨ [a, b] = ['R', 'C']) then
      let ds := (rest.takeWhile Char.isDigit).take 15
      if 5 ≤ ds.length then some ds else none
    else none
  | _ => none

/-- Leftmost match of the patient-id pattern (`re.search` scans positions
left to right). -/
def searchPatientId : Str → Option Str
  | [] => none
  | c :: cs =>
    match patientIdAt (c :: cs) with
    | some ds => some ds
    | none => searchPatientId cs

/-- Embedding of `extract_patient_id`: strips all whitespace, then returns
group 2 of the first match of `(TI|CC|RC)-(\d{5,15})`. -/
def extract_patient_id (text : Str) : Option Str :=
  searchPatientId (text.filter (fun c => ¬ isPySpace c))

/-- Modelled fragment of the `unidecode` transliteration table: ASCII
characters are preserved, Latin letters with diacritics map to their base
letter, and characters outside the modelled range map to the empty string
(as `unidecode` does for unmapped characters). -/
def unidecodeChar (c : Char) : Str :=
  if c.toNat < 128 then [c]
  else match c with
  | 'á' | 'à' | 'â' | 'ä' | 'ã' | 'å' => ['a']
  | 'é' | 'è' | 'ê' | 'ë' => ['e']
  | 'í' | 'ì' | 'î' | 'ï' => ['i']
  | 'ó' | 'ò' | 'ô' | 'ö' | 'õ' => ['o']
  | 'ú' | 'ù' | 'û' | 'ü' => ['u']
  | 'ñ' => ['n']
  | 'ç' => ['c']
  | 'Á' | 'À' | 'Â' | 'Ä' | 'Ã' | 'Å' => ['A']
  | 'É' | 'È' | 'Ê' | 'Ë' => ['E']
  | 'Í' | 'Ì' | 'Î' | 'Ï' => ['I']
  | 'Ó' | 'Ò' | 'Ô' | 'Ö' | 'Õ' => ['O']
  | 'Ú' | 'Ù' | 'Û' | 'Ü' => ['U']
  | 'Ñ' => ['N']
  | 'Ç' => ['C']
  | _ => []

/-- Normalisation used for matching in `determine_file_type`:
`unidecode(s).lower()`. -/
def normalizeMatch (s : Str) : Str :=
  ((s.map unidecodeChar).flatten).map Char.toLower

/-- Exact rational similarity score (numerator, positive denominator),
replacing rapidfuzz's floating-point 0-100 scale.  Comparisons are by
cross-multiplication, so no normalisation is needed. -/
structure Frac where
  num : Int
  den : Int
  den_pos : 0 < den

/-- Order on scores: `a ≤ b` by cross-multiplication. -/
def Frac.le (a b : Frac) : Prop := a.num * b.den ≤ b.num * a.den

/-- Strict order on scores: `a < b` by cross-multiplication. -/
def Frac.lt (a b : Frac) : Prop := a.num * b.den < b.num * a.den

instance (a b : Frac) : Decidable (Frac.le a b) :=
  inferInstanceAs (Decidable (_ ≤ _))

instance (a b : Frac) : Decidable (Frac.lt a b) :=
  inferInstanceAs (Decidable (_ < _))

/-- The score 0. -/
def fracZero : Frac := ⟨0, 1, by omega⟩

/-- The score 100 (identical strings). -/
def frac100 : Frac := ⟨100, 1, by omega⟩

/-- An integer as a score (used for the similarity threshold). -/
def fracOfInt (n : Int) : Frac := ⟨n, 1, by omega⟩

/-- One cell scan of the standard longest-common-subsequence dynamic
programme: given the previous row (from the diagonal cell on) and the cell
to the left, produce the rest of the current row. -/
def lcsScan (x : Char) : Str → List Nat → Nat → List Nat
  | [], _, _ => []
  | _ :: _, [], _ => []
  | y :: ys, p :: ps, left =>
    let cell := if x = y then p + 1 else max left (ps.headD 0)
    cell :: lcsScan x ys ps cell

/-- Next row of the LCS dynamic programme. -/
def lcsRow (x : Char) (ys : Str) (prev : List Nat) : List Nat :=
  0 :: lcsScan x ys prev 0

/-- Length of a longest common subsequence, computed row by row.  The InDel
(insertion/deletion) edit distance underlying rapidfuzz's `ratio` is
`a.length + b.length - 2 * lcs a b`. -/
def lcs (xs ys : Str) : Nat :=
  (xs.foldl (fun row x => lcsRow x ys row) (List.replicate (ys.length + 1) 0)).getLastD 0

/-- Embedding of rapidfuzz `fuzz.ratio`: the InDel normalised similarity on
a 0-100 scale, `100 * (1 - dist / (|s| + |w|)) = 100 * 2 * lcs / (|s| + |w|)`,
and 100 when both strings are empty. -/
def indelRatio (s w : Str) : Frac :=
  if h : s.length + w.length = 0 then frac100
  else ⟨100 * (2 * (lcs s w : Int)), ((s.length + w.length : Nat) : Int), by omega⟩

/-- Embedding of the window scan of rapidfuzz `fuzz.partial_ratio` for a
needle `s` no longer than the haystack `l`: the best `ratio` of `s` against
the prefixes of `l` shorter than `s`, all windows of `l` of length `|s|`,
and the suffixes of `l` shorter than `s` (the character-set skip of the
implementation never changes this maximum).  An empty needle scores 0
against a non-empty haystack. -/
def prWindows (s l : Str) : Frac :=
  if s.isEmpty then (if l.isEmpty then frac100 else fracZero)
  else
    let n := s.length
    let m := l.length
    let pres := (List.range (n - 1)).map (fun k => l.take (k + 1))
    let fulls := (List.range (m - n + 1)).map (fun i => (l.drop i).take n)
    let sufs := (List.range (n - 1)).map (fun j => l.drop (m - n + 1 + j))
    (pres ++ fulls ++ sufs).foldl
      (fun acc w => if Frac.lt acc (indelRatio s w) then indelRatio s w else acc) fracZero

/-- Embedding of rapidfuzz `fuzz.partial_ratio`: 100 when both strings are
empty, otherwise the window scan with the shorter string as needle; for
strings of equal length both directions are tried and the better kept. -/
def partRatio (a b : Str) : Frac :=
  if a.isEmpty && b.isEmpty then frac100
  else if a.length < b.length then prWindows a b
  else if b.length < a.length then prWindows b a
  else if Frac.lt (prWindows a b) (prWindows b a) then prWindows b a
  else prWindows a b

/-- Inner keyword loop of `determine_file_type`: an exact substring match of
the normalised keyword in the normalised text returns the file type
immediately (`Sum.inl`); otherwise the best fuzzy candidate seen so far is
updated when the partial-ratio score meets the threshold and strictly
exceeds the best score (`Sum.inr` carries the updated state). -/
def scanKws (ntext : Str) (th : Frac) (file_type : Str) :
    List Str → Option Str → Frac → Str ⊕ (Option Str × Frac)
  | [], best, highest => Sum.inr (best, highest)
  | kw :: rest, best, highest =>
    let nkw := normalizeMatch kw
    if nkw <:+: ntext then Sum.inl file_type
    else
      let sim := partRatio ntext nkw
      if Frac.le th sim ∧ Frac.lt highest sim then
        scanKws ntext th file_type rest (some file_type) sim
      else scanKws ntext th file_type rest best highest

/-- Outer loop of `determine_file_type` over the type rules, in map order. -/
def scanTypes (ntext : Str) (th : Frac) :
    List (Str × List Str) → Option Str → Frac → Option Str
  | [], best, _ => best
  | (file_type, kws) :: rest, best, highest =>
    match scanKws ntext th file_type kws best highest with
    | Sum.inl r => some r
    | Sum.inr (b, h) => scanTypes ntext th rest b h

/-- Embedding of `determine_file_type`: normalises the text, then scans the
keyword map; an exact substring match returns immediately, otherwise the
best fuzzy candidate at or above the threshold is returned (`None` if no
candidate reaches it). -/
def determine_file_type (text : Str) (keywords : List (Str × List Str))
    (similarity_threshold : Int := 80) : Option Str :=
  scanTypes (normalizeMatch text) (fracOfInt similarity_threshold) keywords none fracZero

/-- A template segment of a Python `str.format` string: literal text or a
named replacement field (the only feature the source templates use). -/
inductive Seg where
  | lit : Str → Seg
  | fld : Str → Seg

/-- Embedding of `str.format` with keyword arguments: fields are replaced by
their values; a field whose name is not supplied raises `KeyError` (modelled
as `Except.error` naming the leftmost missing field). -/
def formatStr : List Seg → List (Str × Str) → Except Str Str
  | [], _ => Except.ok []
  | Seg.lit s :: rest, vals => (formatStr rest vals).map (fun t => s ++ t)
  | Seg.fld n :: rest, vals =>
    match List.lookup n vals with
    | none => Except.error n
    | some v => (formatStr rest vals).map (fun t => v ++ t)

/-- The per-payer configuration (`eps_config`): the ordered keyword map and
the filename template. -/
structure EpsConfig where
  TYPES : List (Str × List Str)
  FILENAME_FORMAT : List Seg

/-- The hospital configuration: the numeric id and an optional prefix. -/
structure HospitalConfig where
  NIT : Str
  PREFIX : Option Str

/-- Embedding of `generate_new_filename`: formats the payer template with
`file_type`, `NIT`, `PREFIX` (defaulting to the empty string when absent
from the hospital configuration) and `invoice`; a `KeyError` from the
template propagates (`Except.error`).  `str()` conversion of a possibly
absent value renders `None` as "None". -/
def generate_new_filename (invoice : Option Str) (file_type : Option Str)
    (eps_config : EpsConfig) (hospital_config : HospitalConfig) : Except Str Str :=
  formatStr eps_config.FILENAME_FORMAT
    [("file_type".data, pyStr file_type),
     ("NIT".data, hospital_config.NIT),
     ("PREFIX".data, hospital_config.PREFIX.getD []),
     ("invoice".data, pyStr invoice)]

/-- Embedding of `process_text_for_file_type`: cleans the text and
determines the file type with the default threshold. -/
def process_text_for_file_type (text : Option Str) (eps_config : EpsConfig) : Option Str :=
  determine_file_type (clean_text text) eps_config.TYPES

/-- Embedding of `extract_text_from_pdf`: concatenates the text of every
page; `none` on a read/parse error (absent or unreadable file). -/
def extract_text_from_pdf (fs : FS) (pdf_path : Str) : Option Str :=
  (fs pdf_path).map (fun pages => pages.flatten)

/-- Embedding of `apply_ocr`.  The OCR service is an oracle `ocr` giving the
searchable PDF produced for a path, or `none` when OCR fails.  On success
the "_searchable" file is written and then the input is removed; on failure
the exception is caught and logged and nothing changes. -/
def apply_ocr (ocr : Str → Option Pdf) (fs : FS) (pdf_path : Str) : FS :=
  match ocr pdf_path with
  | none => fs
  | some out => fsErase (fsWrite fs (searchableName pdf_path) out) pdf_path

/-- Embedding of `extract_text_or_apply_ocr`: extracts text and, when the
result is falsy (`None` or empty), applies OCR.  The Python function has no
return statement, so its value is always `None` (first component). -/
def extract_text_or_apply_ocr (ocr : Str → Option Pdf) (fs : FS) (pdf_path : Str) :
    Option Str × FS :=
  let text := extract_text_from_pdf fs pdf_path
  if pyFalsy text then (none, apply_ocr ocr fs pdf_path) else (none, fs)

/-- The page-writing loop of `split_pdf_by_page`: page `i` (0-based) is
written to the file named with the 1-based index `i + 1`. -/
def writePages (pdf_path : Str) : List Page → Nat → FS → FS
  | [], _, fs => fs
  | pg :: rest, i, fs =>
    writePages pdf_path rest (i + 1) (fsWrite fs (pageName pdf_path (i + 1)) [pg])

/-- Embedding of `split_pdf_by_page`: on a read error returns the empty
list, a single-page PDF is returned unchanged as `[pdf_path]`, and a
multi-page PDF is written out as one file per page, in page order. -/
def split_pdf_by_page (fs : FS) (pdf_path : Str) : List Str × FS :=
  match fs pdf_path with
  | none => ([], fs)
  | some pages =>
    if pages.length = 1 then ([pdf_path], fs)
    else ((List.range pages.length).map (fun i => pageName pdf_path (i + 1)),
          writePages pdf_path pages 0 fs)

/-- Embedding of `handle_pdf_splitting`: splits, then deletes the original
only when more than one page path was returned; an empty result (split
failure) is only logged. -/
def handle_pdf_splitting (fs : FS) (pdf_path : Str) : FS :=
  let res := split_pdf_by_page fs pdf_path
  if res.1.isEmpty then res.2
  else if 1 < res.1.length then fsErase res.2 pdf_path
  else res.2

/-- Reading every input of `combine_pdfs`; `none` if any read fails (the
exception aborts the whole operation before anything is written). -/
def readAll (fs : FS) (paths : List Str) : Option (List Pdf) :=
  paths.mapM fs

/-- The removal loop of `combine_pdfs`: sources are removed one by one; a
failing removal (missing file) raises, which aborts the remaining
removals. -/
def removeSeq (fs : FS) : List Str → FS
  | [] => fs
  | p :: rest =>
    match fs p with
    | none => fs
    | some _ => removeSeq (fsErase fs p) rest

/-- Embedding of `combine_pdfs`: reads all member PDFs, writes their pages
concatenated in member order to `output_path`, then removes the member
files.  Any read error leaves the filesystem unchanged. -/
def combine_pdfs (fs : FS) (pdf_paths : List Str) (output_path : Str) : FS :=
  match readAll fs pdf_paths with
  | none => fs
  | some pdfs => removeSeq (fsWrite fs output_path pdfs.flatten) pdf_paths

/-- The result dictionary of `process_pdf_file`. -/
structure PdfInfo where
  file_type : Option Str
  invoice : Option Str
  patient_id : Option Str
deriving DecidableEq

/-- Embedding of `process_pdf_file`.  A missing invoice number, failed text
extraction or unresolved file type are only logged ("Skipping") — the
function still returns a dictionary carrying `None` fields.  It returns
`None` only when the bare `except` catches an exception, which happens
exactly when `text` is `None` (then `extract_patient_id(text)` raises a
`TypeError` inside the `try`). -/
def process_pdf_file (fs : FS) (eps_config : EpsConfig) (pdf_path : Str) : Option PdfInfo :=
  let folder_name := basename (dirname pdf_path)
  let invoice := extract_invoice_number folder_name
  let text := extract_text_from_pdf fs pdf_path
  let file_type := process_text_for_file_type text eps_config
  match text with
  | none => none
  | some t =>
    some { file_type := file_type, invoice := invoice, patient_id := extract_patient_id t }

/-- Embedding of `dict.setdefault(key, []).append(p)` on the insertion-order
preserving grouping map. -/
def setdefaultAppend (groups : List (Option Str × List Str)) (k : Option Str) (p : Str) :
    List (Option Str × List Str) :=
  if (List.lookup k groups).isSome then
    groups.map (fun g => if g.1 = k then (g.1, g.2 ++ [p]) else g)
  else groups ++ [(k, [p])]

/-- The grouping loop of `combine_and_rename_pdfs` for one folder: every
file whose `process_pdf_file` result is truthy is appended to the group of
its (possibly `None`) file type. -/
def group_pages (fs : FS) (eps_config : EpsConfig) (files : List Str) :
    List (Option Str × List Str) :=
  files.foldl (fun groups pdf_path =>
    match process_pdf_file fs eps_config pdf_path with
    | none => groups
    | some r => setdefaultAppend groups r.file_type pdf_path) []

/-- Embedding of `generate_new_file_path`: the new filename joined onto the
directory of the original file; a template `KeyError` propagates. -/
def generate_new_file_path (pdf_path : Str) (file_type : Option Str) (invoice : Option Str)
    (eps_config : EpsConfig) (hospital_config : HospitalConfig) : Except Str Str :=
  (generate_new_filename invoice file_type eps_config hospital_config).map
    (fun new_filename => path_join (dirname pdf_path) new_filename)

/-- Embedding of `combine_pdfs_by_type`: for every group (keyed by the
possibly-`None` file type) the members are merged into
`combined_{file_type}.pdf` and that file is renamed to the generated name.
A template `KeyError` propagates after the merge already happened (second
component carries the missing field and the remaining groups are not
processed); a failed rename (no combined file) is only logged. -/
def combine_pdfs_by_type (eps_config : EpsConfig) (hospital_config : HospitalConfig)
    (fs : FS) : List (Option Str × List Str) → FS × Option Str
  | [] => (fs, none)
  | (file_type, related_pages) :: rest =>
    match related_pages.head? with
    | none => combine_pdfs_by_type eps_config hospital_config fs rest
    | some p0 =>
      let combined_path := path_join (dirname p0) ("combined_".data ++ pyStr file_type ++ ".pdf".data)
      let fs1 := combine_pdfs fs related_pages combined_path
      let invoice := extract_invoice_number (basename (dirname p0))
      match generate_new_file_path p0 file_type invoice eps_config hospital_config with
      | Except.error e => (fs1, some e)
      | Except.ok new_pdf_path =>
        match fs1 combined_path with
        | none => combine_pdfs_by_type eps_config hospital_config fs1 rest
        | some v =>
          combine_pdfs_by_type eps_config hospital_config
            (fsWrite (fsErase fs1 combined_path) new_pdf_path v) rest

/-- One folder pass of `combine_and_rename_pdfs`: group the files, then
combine and rename each group (when any group exists). -/
def combine_and_rename_folder (eps_config : EpsConfig) (hospital_config : HospitalConfig)
    (fs : FS) (files : List Str) : FS × Option Str :=
  let groups := group_pages fs eps_config files
  if groups.isEmpty then (fs, none)
  else combine_pdfs_by_type eps_config hospital_config fs groups

/-- Whether a (modelled) string starts with a whitespace character. -/
def headWsB (l : Str) : Bool :=
  match l with
  | [] => false
  | c :: _ => isPySpace c

/-- Whether a string is free of runs of two or more consecutive whitespace
characters. -/
def noTwoWs : Str → Bool
  | [] => true
  | c :: rest => (!(isPySpace c && headWsB rest)) && noTwoWs rest

/-- Decimal value of a digit string (used to invert `decRepr`). -/
def decVal (l : Str) : Nat :=
  l.foldl (fun acc c => acc * 10 + (c.toNat - 48)) 0

/-- The candidate update step of `determine_file_type`'s fuzzy scan: a
candidate replaces the current best exactly when its score meets the
threshold and strictly exceeds the best score so far. -/
def updState (th : Frac) (st : Option Str × Frac) (c : Str × Frac) : Option Str × Frac :=
  if Frac.le th c.2 ∧ Frac.lt st.2 c.2 then (some c.1, c.2) else st

/-- First element of maximal score in a candidate list (later candidates
win only with a strictly greater score). -/
def firstMax : List (Str × Frac) → Option (Str × Frac)
  | [] => none
  | c :: cs => some (cs.foldl (fun acc x => if Frac.lt acc.2 x.2 then x else acc) c)

/-- All fuzzy candidates of a rule map against a normalised text, in scan
order: one `(type, partial-ratio score)` pair per keyword. -/
def candScores (ntext : Str) (rules : List (Str × List Str)) : List (Str × Frac) :=
  (rules.map (fun pr => pr.2.map (fun kw => (pr.1, partRatio ntext (normalizeMatch kw))))).flatten

/-- The fuzzy candidates of `determine_file_type text rules`. -/
def fuzzyCandidates (text : Str) (rules : List (Str × List Str)) : List (Str × Frac) :=
  candScores (normalizeMatch text) rules

/-- Specification-side selection, following the spec's words: among the
candidates whose score is at or above the threshold (inclusive), the
first-seen candidate of maximal score wins; `none` when no candidate
reaches the threshold. -/
def specBestFuzzy (th : Frac) (cands : List (Str × Frac)) : Option Str :=
  (firstMax (cands.filter (fun c => decide (Frac.le th c.2)))).map (fun c => c.1)

/-- The replacement-field names referenced by a template. -/
def fieldsOf (tpl : List Seg) : List Str :=
  tpl.filterMap (fun s => match s with | Seg.lit _ => none | Seg.fld n => some n)

/-- Filesystem fixture for the C4 analysis: `a.pdf` has a whitespace-only
page, `b.pdf` an empty page. -/
def fsC4 : FS :=
  fun q => if q = "a.pdf".data then some [[' ']]
    else if q = "b.pdf".data then some [[]] else none

/-- OCR oracle fixture for the C4 analysis: OCR of `b.pdf` yields a one-page
searchable PDF whose text is "T". -/
def ocrC4 : Str → Option Pdf :=
  fun q => if q = "b.pdf".data then some [['T']] else none

/-- Payer configuration fixture whose template references `SUFFIX`. -/
def epsC5 : EpsConfig :=
  { TYPES := [], FILENAME_FORMAT := [Seg.fld "SUFFIX".data] }

/-- Hospital configuration fixture without a prefix. -/
def hospC5 : HospitalConfig :=
  { NIT := "890702241".data, PREFIX := none }

/-- Filesystem fixture for the C1 analysis: one invoice folder `ELE46339`
holding one readable page whose text "zzz" matches no keyword. -/
def fsC1 : FS :=
  fun q => if q = "root/ELE46339/a.pdf".data then some [['z', 'z', 'z']] else none

/-- Payer configuration fixture for the C1 analysis. -/
def epsC1 : EpsConfig :=
  { TYPES := [("FVS".data, ["factura".data])],
    FILENAME_FORMAT := [Seg.fld "file_type".data] }

/-- Hospital configuration fixture for the C1 analysis. -/
def hospC1 : HospitalConfig :=
  { NIT := "890702241".data, PREFIX := none }

/-- Filesystem fixture for the C6 witness: one two-page PDF `doc.pdf`. -/
def fsC6 : FS :=
  fun q => if q = "doc.pdf".data then some [['x'], ['y']] else none

/-- Filesystem fixture for the C9 witness: two readable member PDFs. -/
def fsC9 : FS :=
  fun q => if q = "a.pdf".data then some [['x']]
    else if q = "b.pdf".data then some [['y'], ['z']] else none

lemma headWsB_cleanSub (l : Str) : headWsB (cleanSub l) = headWsB l := by
  match l with
  | [] => simp [cleanSub]
  | [c] => simp [cleanSub]
  | c :: d :: tl =>
    by_cases hc : isPySpace c = true
    · by_cases hd : isPySpace d = true
      · have hsp : isPySpace ' ' = true := by decide
        simp [cleanSub, hc, hd, headWsB, hsp]
      · simp [cleanSub, hc, hd, headWsB]
    · simp [cleanSub, hc, headWsB]

lemma headWsB_dropWhile (l : Str) : headWsB (l.dropWhile isPySpace) = false := by
  induction l with
  | nil => rfl
  | cons c cs ih =>
    by_cases hc : isPySpace c = true
    · simpa [List.dropWhile, hc] using ih
    · simp [List.dropWhile, hc, headWsB]

lemma noTwoWs_cleanSub : (l : Str) → noTwoWs (cleanSub l) = true
  | [] => by simp [cleanSub, noTwoWs]
  | [c] => by simp [cleanSub, noTwoWs, headWsB]
  | c :: d :: tl => by
    by_cases hc : isPySpace c = true
    · by_cases hd : isPySpace d = true
      · have ih := noTwoWs_cleanSub (tl.dropWhile isPySpace)
        have hh := headWsB_cleanSub (tl.dropWhile isPySpace)
        rw [headWsB_dropWhile] at hh
        simp [cleanSub, hc, hd, noTwoWs, ih, hh]
      · have ih := noTwoWs_cleanSub (d :: tl)
        have hh := headWsB_cleanSub (d :: tl)
        have hh2 : headWsB (cleanSub (d :: tl)) = false := by
          rw [hh]; simp [headWsB, hd]
        simp [cleanSub, hc, hd, noTwoWs, ih, hh2]
    · have ih := noTwoWs_cleanSub (d :: tl)
      simp [cleanSub, hc, noTwoWs, ih]
termination_by l => l.length
decreasing_by
  · have h := (List.dropWhile_suffix (l := tl) isPySpace).sublist.length_le
    simp only [List.length_cons]
    omega
  · simp
  · simp

lemma cleanSub_of_noTwoWs : (l : Str) → noTwoWs l = true → cleanSub l = l
  | [], _ => by simp [cleanSub]
  | [_], _ => by simp [cleanSub]
  | c :: d :: tl, h => by
    have hparts : (!(isPySpace c && isPySpace d)) = true ∧ noTwoWs (d :: tl) = true := by
      simpa [noTwoWs, headWsB, Bool.and_eq_true] using h
    have ih := cleanSub_of_noTwoWs (d :: tl) hparts.2
    by_cases hc : isPySpace c = true
    · have hd : isPySpace d = false := by
        rcases hparts with ⟨h1, _⟩
        by_contra hdd
        simp [hc, eq_true_of_ne_false hdd] at h1
      simp [cleanSub, hc, hd, ih]
    · simp [cleanSub, hc, ih]

/-- C10: the whitespace-collapsing normaliser `clean_text` is idempotent,
and its output never contains two consecutive whitespace characters. -/
theorem C10_clean_text_idempotent (t : Option Str) :
    clean_text (some (clean_text t)) = clean_text t ∧ noTwoWs (clean_text t) = true := by
  have hnt : noTwoWs (clean_text t) = true := by
    match t with
    | none => rfl
    | some s =>
      by_cases hs : s.isEmpty
      · simp [clean_text, hs, noTwoWs]
      · simpa [clean_text, hs] using noTwoWs_cleanSub s
  refine ⟨?_, hnt⟩
  have h1 : clean_text (some (clean_text t)) =
      if (clean_text t).isEmpty then [] else cleanSub (clean_text t) := rfl
  rw [h1]
  by_cases hr : (clean_text t).isEmpty = true
  · rw [if_pos hr]
    exact (List.isEmpty_iff.mp hr).symm
  · rw [if_neg hr]
    exact cleanSub_of_noTwoWs (clean_text t) hnt

lemma digitVal_digitChar : ∀ d < 10, (digitChar d).toNat - 48 = d := by decide

lemma decDigits_spec : ∀ (f n acc : Nat), n < 10 ^ (f + 1) →
    List.foldl (fun acc c => acc * 10 + (c.toNat - 48)) acc (decDigits (f + 1) n) =
      acc * 10 ^ (decDigits (f + 1) n).length + n := by
  intro f
  induction f with
  | zero =>
    intro n acc hn
    have hn10 : n < 10 := by simpa using hn
    simp [decDigits, hn10, digitVal_digitChar n hn10]
  | succ f ih =>
    intro n acc hn
    by_cases hn10 : n < 10
    · simp [decDigits, hn10, digitVal_digitChar n hn10]
    · have hdiv : n / 10 < 10 ^ (f + 1) := by
        rw [Nat.div_lt_iff_lt_mul (by norm_num)]
        calc n < 10 ^ (f + 1 + 1) := hn
        _ = 10 ^ (f + 1) * 10 := by ring
      have heq : decDigits (f + 1 + 1) n =
          decDigits (f + 1) (n / 10) ++ [digitChar (n % 10)] := by
        simp [decDigits, hn10]
      rw [heq, List.foldl_append, ih (n / 10) acc hdiv]
      have hmod : (digitChar (n % 10)).toNat - 48 = n % 10 :=
        digitVal_digitChar (n % 10) (Nat.mod_lt n (by norm_num))
      simp only [List.foldl_cons, List.foldl_nil, List.length_append, List.length_cons,
        List.length_nil]
      rw [hmod]
      have hgoal : ∀ A L : Nat,
          (A * 10 ^ L + n / 10) * 10 + n % 10 = A * 10 ^ (L + (0 + 1)) + n := by
        intro A L
        rw [show (10 : Nat) ^ (L + (0 + 1)) = 10 ^ L * 10 from by ring, ← Nat.mul_assoc]
        generalize A * 10 ^ L = X
        omega
      exact hgoal acc (decDigits (f + 1) (n / 10)).length

lemma decVal_decRepr (n : Nat) : decVal (decRepr n) = n := by
  have hlt : n < 10 ^ (n + 1) := by
    calc n < 10 ^ n := Nat.lt_pow_self (by norm_num) n
    _ ≤ 10 ^ (n + 1) := Nat.pow_le_pow_right (by norm_num) (Nat.le_succ n)
  have h := decDigits_spec n n 0 hlt
  simpa [decVal, decRepr] using h

lemma decRepr_inj {a b : Nat} (h : decRepr a = decRepr b) : a = b := by
  have := decVal_decRepr a
  rw [h, decVal_decRepr b] at this
  omega

lemma splitLast_eq (sep : Char) :
    ∀ (l a b : Str), splitLast sep l = some (a, b) → l = a ++ b ∧ ∃ t, b = sep :: t := by
  intro l
  induction l with
  | nil => intro a b h; simp [splitLast] at h
  | cons c cs ih =>
    intro a b h
    cases hcs : splitLast sep cs with
    | some ab =>
      obtain ⟨a', b'⟩ := ab
      simp only [splitLast, hcs, Option.some.injEq, Prod.mk.injEq] at h
      obtain ⟨h1, h2⟩ := h
      obtain ⟨hl, t, ht⟩ := ih a' b' hcs
      subst h1
      subst h2
      exact ⟨by rw [hl, List.cons_append], t, ht⟩
    | none =>
      simp only [splitLast, hcs] at h
      by_cases hc : c = sep
      · rw [if_pos hc] at h
        simp only [Option.some.injEq, Prod.mk.injEq] at h
        obtain ⟨h1, h2⟩ := h
        subst h1
        subst h2
        exact ⟨rfl, cs, by rw [← hc]⟩
      · simp [hc] at h

lemma splitext_facts (p : Str) :
    (splitext p).1 ++ (splitext p).2 = p ∧
      ((splitext p).2 = [] ∨ ∃ t, (splitext p).2 = '.' :: t) := by
  unfold splitext
  cases h : splitLast '/' p with
  | none =>
    simp only
    cases h2 : splitLast '.' p with
    | none => exact ⟨by simp, Or.inl rfl⟩
    | some be =>
      obtain ⟨b, ext⟩ := be
      obtain ⟨hp, t, ht⟩ := splitLast_eq '.' p b ext h2
      dsimp only
      by_cases hb : (List.any b fun c => decide (c ≠ '.')) = true
      · constructor
        · rw [if_pos hb]
          simpa using hp.symm
        · right
          exact ⟨t, by rw [if_pos hb]; exact ht⟩
      · exact ⟨by rw [if_neg hb]; simp, Or.inl (by rw [if_neg hb])⟩
  | some ds =>
    obtain ⟨d, s⟩ := ds
    obtain ⟨hp, t, ht⟩ := splitLast_eq '/' p d s h
    simp only
    cases h2 : splitLast '.' s.tail with
    | none => exact ⟨by simp, Or.inl rfl⟩
    | some be =>
      obtain ⟨b, ext⟩ := be
      obtain ⟨hs, t2, ht2⟩ := splitLast_eq '.' s.tail b ext h2
      dsimp only
      by_cases hb : (List.any b fun c => decide (c ≠ '.')) = true
      · constructor
        · rw [if_pos hb]
          show (d ++ ['/'] ++ b) ++ ext = p
          rw [List.append_assoc, List.append_assoc, ← hs, hp, ht]
          simp
        · right
          exact ⟨t2, by rw [if_pos hb]; exact ht2⟩
      · exact ⟨by rw [if_neg hb]; simp, Or.inl (by rw [if_neg hb])⟩

lemma stem_append_ne (p : Str) (s : Str) (c : Char) (t : Str)
    (hs : s = c :: t) (hc : c ≠ '.') : (splitext p).1 ++ s ≠ p := by
  intro h
  obtain ⟨hp, hshape⟩ := splitext_facts p
  have h2 : (splitext p).1 ++ s = (splitext p).1 ++ (splitext p).2 := by
    rw [hp]; exact h
  have hse : s = (splitext p).2 := List.append_cancel_left h2
  rcases hshape with hext | ⟨u, hext⟩
  · rw [hext, hs] at hse
    exact List.cons_ne_nil c t hse
  · rw [hext, hs] at hse
    exact hc (List.head_eq_of_cons_eq hse)

lemma pageName_ne (p : Str) (i : Nat) : pageName p i ≠ p := by
  have h : pageName p i =
      (splitext p).1 ++ ('_' :: ("page_".data ++ decRepr i ++ ".pdf".data)) := by
    simp [pageName, List.append_assoc]
  rw [h]
  exact stem_append_ne p _ '_' _ rfl (by decide)

lemma searchableName_ne (p : Str) : searchableName p ≠ p := by
  have h : searchableName p =
      (splitext p).1 ++ ('_' :: "searchable.pdf".data) := rfl
  rw [h]
  exact stem_append_ne p _ '_' _ rfl (by decide)

lemma pageName_inj (p : Str) {i j : Nat} (h : pageName p i = pageName p j) : i = j := by
  simp only [pageName, List.append_assoc] at h
  have h1 := List.append_cancel_left h
  have h2 := List.append_cancel_left h1
  have h3 := List.append_cancel_right h2
  exact decRepr_inj h3

lemma writePages_other (p : Str) :
    ∀ (pages : List Page) (k : Nat) (fs : FS) (q : Str),
      (∀ j, j < pages.length → q ≠ pageName p (k + j + 1)) →
      writePages p pages k fs q = fs q := by
  intro pages
  induction pages with
  | nil => intro k fs q _; rfl
  | cons pg rest ih =>
    intro k fs q hq
    simp only [writePages]
    rw [ih (k + 1) _ q (fun j hj => by
      have := hq (j + 1) (by simpa using Nat.succ_lt_succ hj)
      simpa [Nat.add_right_comm k 1 j] using this)]
    have h0 : q ≠ pageName p (k + 1) := by
      have := hq 0 (by simp)
      simpa using this
    simp [fsWrite, h0]

lemma writePages_get (p : Str) :
    ∀ (pages : List Page) (k : Nat) (fs : FS) (j : Nat) (hj : j < pages.length),
      writePages p pages k fs (pageName p (k + j + 1)) = some [pages.get ⟨j, hj⟩] := by
  intro pages
  induction pages with
  | nil => intro k fs j hj; simp at hj
  | cons pg rest ih =>
    intro k fs j hj
    match j with
    | 0 =>
      simp only [writePages]
      rw [writePages_other p rest (k + 1) _ _ (fun j' hj' => by
        intro hcontra
        have := pageName_inj p hcontra
        omega)]
      simp [fsWrite]
    | j' + 1 =>
      simp only [writePages]
      have hidx : k + (j' + 1) + 1 = (k + 1) + j' + 1 := by omega
      rw [hidx]
      have hj' : j' < rest.length := by simpa using Nat.lt_of_succ_lt_succ hj
      rw [ih (k + 1) _ j' hj']
      rfl

/-- C6: splitting a readable PDF: a single-page PDF is returned unchanged as
the one-element list of the original path with no file created; a PDF with
more than one page yields one new single-page file per page, named from the
stem with the 1-based page index, in page order, with the original left on
disk and nothing else touched. -/
theorem C6_split (fs : FS) (p : Str) (pages : Pdf) (h : fs p = some pages) :
    (pages.length = 1 → split_pdf_by_page fs p = ([p], fs))
    ∧ (1 < pages.length →
        (split_pdf_by_page fs p).1 =
          (List.range pages.length).map (fun i => pageName p (i + 1))
        ∧ (∀ j (hj : j < pages.length),
            (split_pdf_by_page fs p).2 (pageName p (j + 1)) = some [pages.get ⟨j, hj⟩])
        ∧ (split_pdf_by_page fs p).2 p = fs p
        ∧ (∀ q, q ∉ (split_pdf_by_page fs p).1 → (split_pdf_by_page fs p).2 q = fs q)) := by
  constructor
  · intro h1
    simp [split_pdf_by_page, h, h1]
  · intro h2
    have h1 : ¬ pages.length = 1 := by omega
    have hsplit : split_pdf_by_page fs p =
        ((List.range pages.length).map (fun i => pageName p (i + 1)),
          writePages p pages 0 fs) := by
      simp [split_pdf_by_page, h, h1]
    rw [hsplit]
    refine ⟨rfl, ?_, ?_, ?_⟩
    · intro j hj
      have := writePages_get p pages 0 fs j hj
      simpa using this
    · exact writePages_other p pages 0 fs p (fun j hj => by
        have := pageName_ne p (0 + j + 1)
        exact fun hc => this (hc.symm))
    · intro q hq
      simp only [List.mem_map, List.mem_range, not_exists] at hq
      exact writePages_other p pages 0 fs q (fun j hj => by
        have := hq j
        simp only [not_and] at this
        intro hc
        exact this hj (by simpa using hc.symm))

/-- Witness for C6 at a concrete two-page PDF. -/
theorem C6_witness :
    (split_pdf_by_page fsC6 "doc.pdf".data).1 =
      ["doc_page_1.pdf".data, "doc_page_2.pdf".data]
    ∧ (split_pdf_by_page fsC6 "doc.pdf".data).2 "doc_page_1.pdf".data = some [['x']]
    ∧ (split_pdf_by_page fsC6 "doc.pdf".data).2 "doc_page_2.pdf".data = some [['y']]
    ∧ (split_pdf_by_page fsC6 "doc.pdf".data).2 "doc.pdf".data = some [['x'], ['y']] := by
  have h := (C6_split fsC6 "doc.pdf".data [['x'], ['y']] (by decide)).2 (by decide)
  obtain ⟨hlist, hget, horig, _⟩ := h
  have hn1 : pageName "doc.pdf".data 1 = "doc_page_1.pdf".data := by decide
  have hn2 : pageName "doc.pdf".data 2 = "doc_page_2.pdf".data := by decide
  refine ⟨?_, ?_, ?_, ?_⟩
  · rw [hlist]
    decide
  · rw [← hn1]
    simpa using hget 0 (by decide)
  · rw [← hn2]
    simpa using hget 1 (by decide)
  · rw [horig]
    decide

/-- C7: on a read/parse error the splitter returns the empty list and the
filesystem is untouched, and the caller `handle_pdf_splitting` deletes the
original exactly when the splitter returned more than one path (so never on
the error or single-page results). -/
theorem C7_split_error_sentinel (fs : FS) (p : Str) :
    (fs p = none → split_pdf_by_page fs p = ([], fs) ∧ handle_pdf_splitting fs p = fs)
    ∧ handle_pdf_splitting fs p =
        (if 1 < (split_pdf_by_page fs p).1.length
          then fsErase (split_pdf_by_page fs p).2 p
          else (split_pdf_by_page fs p).2) := by
  constructor
  · intro h
    have hsplit : split_pdf_by_page fs p = ([], fs) := by
      simp [split_pdf_by_page, h]
    exact ⟨hsplit, by simp [handle_pdf_splitting, hsplit]⟩
  · by_cases he : (split_pdf_by_page fs p).1.isEmpty
    · have hlen : ¬ 1 < (split_pdf_by_page fs p).1.length := by
        rw [List.isEmpty_iff] at he
        simp [he]
      simp [handle_pdf_splitting, he, hlen]
    · by_cases hlen : 1 < (split_pdf_by_page fs p).1.length
      · simp [handle_pdf_splitting, he, hlen]
      · simp [handle_pdf_splitting, he, hlen]

/-- Witness for C7 at a concrete unreadable path. -/
theorem C7_witness :
    split_pdf_by_page (fun _ => none) "bad.pdf".data = ([], fun _ => none)
    ∧ handle_pdf_splitting (fun _ => none) "bad.pdf".data = (fun _ => none) := by
  exact (C7_split_error_sentinel (fun _ => none) "bad.pdf".data).1 rfl

lemma readAll_isSome (fs : FS) :
    ∀ (paths : List Str) (pdfs : List Pdf), readAll fs paths = some pdfs →
      ∀ p ∈ paths, ∃ v, fs p = some v := by
  intro paths
  induction paths with
  | nil => intro pdfs _ p hp; simp at hp
  | cons q rest ih =>
    intro pdfs h p hp
    simp only [readAll, List.mapM_cons] at h
    cases hq : fs q with
    | none => rw [hq] at h; simp at h
    | some v =>
      rw [hq] at h
      cases hrest : List.mapM fs rest with
      | none => rw [hrest] at h; simp at h
      | some vs =>
        rcases List.mem_cons.mp hp with rfl | hp2
        · exact ⟨v, hq⟩
        · exact ih vs hrest p hp2

lemma removeSeq_other :
    ∀ (paths : List Str) (fs : FS) (q : Str),
      q ∉ paths → removeSeq fs paths q = fs q := by
  intro paths
  induction paths with
  | nil => intro fs q _; rfl
  | cons r rest ih =>
    intro fs q hq
    have hqr : q ≠ r := by
      intro hc; exact hq (by simp [hc])
    cases hv : fs r with
    | none => simp [removeSeq, hv]
    | some v =>
      simp only [removeSeq, hv]
      rw [ih (fsErase fs r) q (fun hc => hq (by simp [hc]))]
      simp [fsErase, hqr]

lemma removeSeq_mem :
    ∀ (paths : List Str) (fs : FS), (∀ p ∈ paths, ∃ v, fs p = some v) → paths.Nodup →
      ∀ p ∈ paths, removeSeq fs paths p = none := by
  intro paths
  induction paths with
  | nil => intro _ _ _ p hp; simp at hp
  | cons r rest ih =>
    intro fs hsome hnd p hp
    obtain ⟨v, hv⟩ := hsome r (by simp)
    simp only [removeSeq, hv]
    have hsome2 : ∀ x ∈ rest, ∃ w, fsErase fs r x = some w := by
      intro x hx
      have hxr : x ≠ r := by
        intro hc
        exact (List.nodup_cons.mp hnd).1 (hc ▸ hx)
      obtain ⟨w, hw⟩ := hsome x (by simp [hx])
      exact ⟨w, by simp [fsErase, hxr, hw]⟩
    rcases List.mem_cons.mp hp with rfl | hp2
    · rw [removeSeq_other rest (fsErase fs p) p (List.nodup_cons.mp hnd).1]
      simp [fsErase]
    · exact ih (fsErase fs r) hsome2 (List.nodup_cons.mp hnd).2 p hp2

/-- C9: merging a group of K readable member PDFs (distinct paths, output
not one of them) produces one PDF at the output path whose pages are the
members' pages concatenated in member-list order — in particular its page
count is the sum of the members' page counts — and the member source files
are deleted; no other file changes. -/
theorem C9_merge_round_trip (fs : FS) (paths : List Str) (out : Str) (pdfs : List Pdf)
    (hread : readAll fs paths = some pdfs) (hnd : paths.Nodup) (hout : out ∉ paths) :
    combine_pdfs fs paths out out = some pdfs.flatten
    ∧ pdfs.flatten.length = (pdfs.map List.length).sum
    ∧ (∀ p ∈ paths, combine_pdfs fs paths out p = none)
    ∧ (∀ q, q ∉ paths → q ≠ out → combine_pdfs fs paths out q = fs q) := by
  have hcomb : combine_pdfs fs paths out =
      removeSeq (fsWrite fs out pdfs.flatten) paths := by
    simp [combine_pdfs, hread]
  have hpresent : ∀ p ∈ paths, ∃ v, fsWrite fs out pdfs.flatten p = some v := by
    intro p hp
    obtain ⟨v, hv⟩ := readAll_isSome fs paths pdfs hread p hp
    have hpo : p ≠ out := fun hc => hout (hc ▸ hp)
    exact ⟨v, by simp [fsWrite, hpo, hv]⟩
  refine ⟨?_, ?_, ?_, ?_⟩
  · rw [hcomb, removeSeq_other paths _ out hout]
    simp [fsWrite]
  · simp
  · intro p hp
    rw [hcomb]
    exact removeSeq_mem paths _ hpresent hnd p hp
  · intro q hq hqo
    rw [hcomb, removeSeq_other paths _ q hq]
    simp [fsWrite, hqo]

/-- Witness for C9 at two concrete member PDFs of one and two pages. -/
theorem C9_witness :
    combine_pdfs fsC9 ["a.pdf".data, "b.pdf".data] "out.pdf".data "out.pdf".data =
      some [['x'], ['y'], ['z']]
    ∧ combine_pdfs fsC9 ["a.pdf".data, "b.pdf".data] "out.pdf".data "a.pdf".data = none
    ∧ combine_pdfs fsC9 ["a.pdf".data, "b.pdf".data] "out.pdf".data "b.pdf".data = none := by
  have h := C9_merge_round_trip fsC9 ["a.pdf".data, "b.pdf".data] "out.pdf".data
    [[['x']], [['y'], ['z']]] (by decide) (by decide) (by decide)
  exact ⟨h.1, h.2.2.1 _ (by decide), h.2.2.1 _ (by decide)⟩

/-- C4 counterexample: `extract_text_or_apply_ocr` does not behave as the
claim states.  At `a.pdf`, whose extracted text is whitespace-only (" "),
no OCR is invoked and the filesystem is untouched (the Python guard
`if not text` treats whitespace-only text as success); and at `b.pdf`,
whose extracted text is empty, OCR runs and produces a searchable file
whose extraction yields "T", yet the function still returns `None` — it
never re-attempts extraction and never returns text. -/
theorem C4_counterexample :
    extract_text_or_apply_ocr ocrC4 fsC4 "a.pdf".data = (none, fsC4)
    ∧ (extract_text_or_apply_ocr ocrC4 fsC4 "b.pdf".data).1 = none
    ∧ extract_text_from_pdf (extract_text_or_apply_ocr ocrC4 fsC4 "b.pdf".data).2
        (searchableName "b.pdf".data) = some "T".data := by
  refine ⟨?_, ?_, ?_⟩
  · have hfalsy : pyFalsy (extract_text_from_pdf fsC4 "a.pdf".data) = false := by decide
    simp [extract_text_or_apply_ocr, hfalsy]
  · have hfalsy : pyFalsy (extract_text_from_pdf fsC4 "b.pdf".data) = true := by decide
    simp [extract_text_or_apply_ocr, hfalsy]
  · have hfalsy : pyFalsy (extract_text_from_pdf fsC4 "b.pdf".data) = true := by decide
    simp only [extract_text_or_apply_ocr, hfalsy, if_true, reduceIte]
    decide

/-- C4 amended: the resolver extracts text and, only when the result is
falsy (`None` or empty — whitespace-only text does not trigger OCR),
invokes OCR; OCR writes the "_searchable" file and removes the pre-OCR
input only when the OCR write succeeded (on OCR failure nothing changes).
The function performs no re-extraction and always returns `None`;
re-extraction happens in later pipeline stages that re-walk the tree. -/
theorem C4_resolver_amended (ocr : Str → Option Pdf) (fs : FS) (p : Str) :
    (extract_text_or_apply_ocr ocr fs p).1 = none
    ∧ (pyFalsy (extract_text_from_pdf fs p) = false →
        (extract_text_or_apply_ocr ocr fs p).2 = fs)
    ∧ (pyFalsy (extract_text_from_pdf fs p) = true →
        (extract_text_or_apply_ocr ocr fs p).2 = apply_ocr ocr fs p)
    ∧ (ocr p = none → apply_ocr ocr fs p = fs)
    ∧ (∀ out, ocr p = some out →
        apply_ocr ocr fs p (searchableName p) = some out
        ∧ apply_ocr ocr fs p p = none
        ∧ (∀ q, q ≠ p → q ≠ searchableName p → apply_ocr ocr fs p q = fs q)) := by
  refine ⟨?_, ?_, ?_, ?_, ?_⟩
  · by_cases h : pyFalsy (extract_text_from_pdf fs p) = true
    · simp [extract_text_or_apply_ocr, h]
    · simp [extract_text_or_apply_ocr, h]
  · intro h
    simp [extract_text_or_apply_ocr, h]
  · intro h
    simp [extract_text_or_apply_ocr, h]
  · intro h
    simp [apply_ocr, h]
  · intro out h
    refine ⟨?_, ?_, ?_⟩
    · simp [apply_ocr, h, fsErase, fsWrite, searchableName_ne p]
    · simp [apply_ocr, h, fsErase]
    · intro q hqp hqs
      simp [apply_ocr, h, fsErase, fsWrite, hqp, hqs]

/-- Witness for C4 at the concrete empty-text PDF `b.pdf`. -/
theorem C4_witness :
    (extract_text_or_apply_ocr ocrC4 fsC4 "b.pdf".data).2 =
      apply_ocr ocrC4 fsC4 "b.pdf".data
    ∧ apply_ocr ocrC4 fsC4 "b.pdf".data (searchableName "b.pdf".data) = some [['T']]
    ∧ apply_ocr ocrC4 fsC4 "b.pdf".data "b.pdf".data = none := by
  have h := C4_resolver_amended ocrC4 fsC4 "b.pdf".data
  have h5 := h.2.2.2.2 [['T']] (by decide)
  exact ⟨h.2.2.1 (by decide), h5.1, h5.2.1⟩

/-- C5 counterexample: `generate_new_filename` never supplies `SUFFIX`, so
a template referencing `SUFFIX` fails with a `KeyError` even though the
claim states that `SUFFIX` is substituted (with an empty-string default). -/
theorem C5_counterexample :
    generate_new_filename (some "46339".data) (some "FVS".data) epsC5 hospC5 =
      Except.error "SUFFIX".data := rfl

lemma formatStr_ok_iff (vals : List (Str × Str)) :
    ∀ tpl : List Seg, ((formatStr tpl vals).isOk = true ↔
      ∀ n ∈ fieldsOf tpl, (List.lookup n vals).isSome = true) := by
  intro tpl
  induction tpl with
  | nil => simp [formatStr, fieldsOf, Except.isOk, Except.toBool]
  | cons seg rest ih =>
    cases seg with
    | lit s =>
      simp only [formatStr, fieldsOf, List.filterMap_cons]
      constructor
      · intro h n hn
        cases hrest : formatStr rest vals with
        | error e => rw [hrest] at h; simp [Except.isOk, Except.toBool, Except.map] at h
        | ok v =>
          have : (formatStr rest vals).isOk = true := by
            simp [hrest, Except.isOk, Except.toBool]
          exact (ih.mp this) n hn
      · intro h
        have : (formatStr rest vals).isOk = true := ih.mpr (fun n hn => h n hn)
        cases hrest : formatStr rest vals with
        | error e => rw [hrest] at this; simp [Except.isOk, Except.toBool] at this
        | ok v => simp [hrest, Except.isOk, Except.toBool, Except.map]
    | fld n =>
      simp only [formatStr, fieldsOf, List.filterMap_cons]
      cases hlook : List.lookup n vals with
      | none =>
        constructor
        · intro h
          simp [Except.isOk, Except.toBool] at h
        · intro h
          have := h n (by simp)
          rw [hlook] at this
          simp at this
      | some v =>
        constructor
        · intro h m hm
          rcases List.mem_cons.mp hm with rfl | hm2
          · simp [hlook]
          · cases hrest : formatStr rest vals with
            | error e => rw [hrest] at h; simp [Except.isOk, Except.toBool, Except.map] at h
            | ok w =>
              have : (formatStr rest vals).isOk = true := by
                simp [hrest, Except.isOk, Except.toBool]
              exact (ih.mp this) m hm2
        · intro h
          have : (formatStr rest vals).isOk = true := ih.mpr (fun m hm => h m (by
            simp only [fieldsOf] at hm
            simp only [List.mem_cons]
            exact Or.inr hm))
          cases hrest : formatStr rest vals with
          | error e => rw [hrest] at this; simp [Except.isOk, Except.toBool] at this
          | ok w => simp [hrest, Except.isOk, Except.toBool, Except.map]

lemma formatStr_error (vals : List (Str × Str)) :
    ∀ (tpl : List Seg) (e : Str), formatStr tpl vals = Except.error e →
      e ∈ fieldsOf tpl ∧ List.lookup e vals = none := by
  intro tpl
  induction tpl with
  | nil => intro e h; simp [formatStr] at h
  | cons seg rest ih =>
    intro e h
    cases seg with
    | lit s =>
      simp only [formatStr] at h
      cases hrest : formatStr rest vals with
      | error e2 =>
        rw [hrest] at h
        simp only [Except.map] at h
        injection h with he
        subst he
        have := ih e2 hrest
        have hm := this.1
        simp only [fieldsOf] at hm ⊢
        exact ⟨by simp only [List.filterMap_cons]; exact hm, this.2⟩
      | ok v => rw [hrest] at h; simp [Except.map] at h
    | fld n =>
      simp only [formatStr] at h
      cases hlook : List.lookup n vals with
      | none =>
        rw [hlook] at h
        injection h with he
        subst he
        exact ⟨by simp [fieldsOf, List.filterMap_cons], hlook⟩
      | some v =>
        rw [hlook] at h
        cases hrest : formatStr rest vals with
        | error e2 =>
          rw [hrest] at h
          simp only [Except.map] at h
          injection h with he
          subst he
          have := ih e2 hrest
          have hm := this.1
          simp only [fieldsOf] at hm ⊢
          exact ⟨by
            simp only [List.filterMap_cons, List.mem_cons]
            simp only [List.mem_filterMap] at hm ⊢
            exact Or.inr hm, this.2⟩
        | ok w => rw [hrest] at h; simp [Except.map] at h

lemma lookup_isSome_iff_keys (n : Str) :
    ∀ l : List (Str × Str), (List.lookup n l).isSome = true ↔ n ∈ l.map Prod.fst := by
  intro l
  induction l with
  | nil => simp [List.lookup]
  | cons kv rest ih =>
    obtain ⟨k, v⟩ := kv
    by_cases hk : n = k
    · simp [List.lookup, hk]
    · have hbeq : (n == k) = false := by
        simp [hk]
      simp [List.lookup, hbeq, ih, hk]

/-- C5 amended: `generate_new_filename` is pure formatting of the payer
template substituting exactly `file_type`, `NIT`, `PREFIX` (empty when the
hospital profile has none) and `invoice` — `SUFFIX` is NOT supplied.  It
succeeds exactly when every referenced field is among those four; a
reference to any other field (including `SUFFIX`) yields a propagated
formatting error naming a missing field. -/
theorem C5_render_amended (tpl : List Seg) (types : List (Str × List Str))
    (inv ft : Option Str) (nit : Str) (pfx : Option Str) :
    ((generate_new_filename inv ft ⟨types, tpl⟩ ⟨nit, pfx⟩).isOk = true ↔
      ∀ n ∈ fieldsOf tpl,
        n ∈ ["file_type".data, "NIT".data, "PREFIX".data, "invoice".data])
    ∧ (∀ e, generate_new_filename inv ft ⟨types, tpl⟩ ⟨nit, pfx⟩ = Except.error e →
        e ∈ fieldsOf tpl ∧
          e ∉ ["file_type".data, "NIT".data, "PREFIX".data, "invoice".data])
    ∧ generate_new_filename inv ft ⟨types, tpl⟩ ⟨nit, none⟩ =
        generate_new_filename inv ft ⟨types, tpl⟩ ⟨nit, some []⟩ := by
  have hkeys : ∀ v : Option Str,
      ([("file_type".data, pyStr ft), ("NIT".data, nit),
        ("PREFIX".data, v.getD []), ("invoice".data, pyStr inv)].map Prod.fst) =
      ["file_type".data, "NIT".data, "PREFIX".data, "invoice".data] := by
    intro v; rfl
  refine ⟨?_, ?_, rfl⟩
  · rw [generate_new_filename]
    rw [formatStr_ok_iff]
    constructor
    · intro h n hn
      have := h n hn
      rw [lookup_isSome_iff_keys, hkeys] at this
      exact this
    · intro h n hn
      rw [lookup_isSome_iff_keys, hkeys]
      exact h n hn
  · intro e herr
    rw [generate_new_filename] at herr
    have := formatStr_error _ tpl e herr
    refine ⟨this.1, ?_⟩
    intro hmem
    have hsome : (List.lookup e
        [("file_type".data, pyStr ft), ("NIT".data, nit),
          ("PREFIX".data, pfx.getD []), ("invoice".data, pyStr inv)]).isSome = true := by
      rw [lookup_isSome_iff_keys, hkeys]
      exact hmem
    rw [this.2] at hsome
    simp at hsome

/-- Witness for C5 at a concrete well-formed template. -/
theorem C5_witness :
    (generate_new_filename (some "46339".data) (some "FVS".data)
        ⟨[], [Seg.fld "file_type".data, Seg.lit "_".data, Seg.fld "invoice".data]⟩
        ⟨"890702241".data, none⟩).isOk = true
    ∧ generate_new_filename (some "46339".data) (some "FVS".data)
        ⟨[], [Seg.fld "SUFFIX".data]⟩ ⟨"890702241".data, none⟩ =
          Except.error "SUFFIX".data
    ∧ "SUFFIX".data ∈ fieldsOf [Seg.fld "SUFFIX".data] := by
  refine ⟨?_, ?_, by decide⟩
  · exact (C5_render_amended [Seg.fld "file_type".data, Seg.lit "_".data,
      Seg.fld "invoice".data] [] (some "46339".data) (some "FVS".data)
      "890702241".data none).1.mpr (by decide)
  · rfl

lemma partRatio_empty_left (nkw : Str) (h : nkw ≠ []) : partRatio [] nkw = fracZero := by
  have hlen : (0 : Nat) < nkw.length := List.length_pos.mpr h
  have hne : ¬(List.isEmpty ([] : Str) && nkw.isEmpty) = true := by
    cases nkw with
    | nil => exact absurd rfl h
    | cons a b => simp
  simp only [partRatio, hne, if_false, reduceIte]
  have hlt : ([] : Str).length < nkw.length := by simpa using hlen
  rw [if_pos hlt]
  simp only [prWindows]
  have : (([] : Str).isEmpty) = true := rfl
  rw [if_pos this]
  have hnkwe : nkw.isEmpty = false := by
    cases nkw with
    | nil => exact absurd rfl h
    | cons a b => rfl
  simp [hnkwe]

lemma scanKws_empty_text (th : Frac) (ft : Str) :
    ∀ (kws : List Str), (∀ kw ∈ kws, normalizeMatch kw ≠ []) →
      scanKws [] th ft kws none fracZero = Sum.inr (none, fracZero) := by
  intro kws
  induction kws with
  | nil => intro _; rfl
  | cons kw rest ih =>
    intro h
    have hkw : normalizeMatch kw ≠ [] := h kw (by simp)
    have hinf : ¬ (normalizeMatch kw <:+: ([] : Str)) := by
      intro hc
      exact hkw (List.eq_nil_of_infix_nil hc)
    simp only [scanKws]
    rw [if_neg hinf]
    have hsim : partRatio [] (normalizeMatch kw) = fracZero := partRatio_empty_left _ hkw
    rw [hsim]
    have hcond : ¬ (Frac.le th fracZero ∧ Frac.lt fracZero fracZero) := by
      intro hc
      have := hc.2
      simp [Frac.lt, fracZero] at this
    rw [if_neg hcond]
    exact ih (fun k hk => h k (by simp [hk]))

/-- C8 counterexample: for the empty text and a rule map containing an
empty keyword, `determine_file_type` returns that keyword's type (the empty
string is a substring of the empty text), not `None` as the claim states
for every rule map. -/
theorem C8_counterexample :
    determine_file_type [] [("A".data, [([] : Str)])] 80 = some "A".data := by
  have hinf : (normalizeMatch [] <:+: normalizeMatch []) := List.infix_rfl
  simp only [determine_file_type, scanTypes, scanKws]
  rw [if_pos hinf]

/-- C8 amended: for empty input text, `determine_file_type` returns `None`
for every threshold, provided no keyword normalises to the empty string
(an empty normalised keyword is instead returned as an exact substring
match; a `None` text never reaches the classifier — `clean_text` upstream
turns it into the empty string); the scan still walks all rules rather
than returning immediately. -/
theorem C8_empty_text_amended (rules : List (Str × List Str)) (th : Int)
    (h : ∀ pr ∈ rules, ∀ kw ∈ pr.2, normalizeMatch kw ≠ []) :
    determine_file_type [] rules th = none := by
  have hmain : ∀ (rs : List (Str × List Str)), (∀ pr ∈ rs, ∀ kw ∈ pr.2, normalizeMatch kw ≠ []) →
      scanTypes [] (fracOfInt th) rs none fracZero = none := by
    intro rs
    induction rs with
    | nil => intro _; rfl
    | cons pr rest ih =>
      intro hrs
      obtain ⟨ft, kws⟩ := pr
      simp only [scanTypes]
      rw [scanKws_empty_text (fracOfInt th) ft kws (fun kw hk => hrs (ft, kws) (by simp) kw hk)]
      exact ih (fun q hq kw hk => hrs q (by simp [hq]) kw hk)
  have hnorm : normalizeMatch [] = [] := rfl
  simp only [determine_file_type, hnorm]
  exact hmain rules h

/-- Witness for C8 at a concrete rule map with non-empty keywords. -/
theorem C8_witness :
    determine_file_type [] [("FVS".data, ["factura".data])] 80 = none :=
  C8_empty_text_amended [("FVS".data, ["factura".data])] 80 (by decide)

lemma scanKws_inl_of_match (ntext : Str) (th : Frac) (ft : Str) :
    ∀ (kws : List Str) (best : Option Str) (highest : Frac),
      (∃ kw ∈ kws, normalizeMatch kw <:+: ntext) →
      scanKws ntext th ft kws best highest = Sum.inl ft := by
  intro kws
  induction kws with
  | nil => intro best highest h; simp at h
  | cons kw rest ih =>
    intro best highest h
    simp only [scanKws]
    by_cases hkw : normalizeMatch kw <:+: ntext
    · rw [if_pos hkw]
    · rw [if_neg hkw]
      have h2 : ∃ k ∈ rest, normalizeMatch k <:+: ntext := by
        obtain ⟨k, hk, hik⟩ := h
        rcases List.mem_cons.mp hk with rfl | hk2
        · exact absurd hik hkw
        · exact ⟨k, hk2, hik⟩
      by_cases hc : Frac.le th (partRatio ntext (normalizeMatch kw)) ∧
          Frac.lt highest (partRatio ntext (normalizeMatch kw))
      · rw [if_pos hc]; exact ih _ _ h2
      · rw [if_neg hc]; exact ih _ _ h2

lemma scanKws_inl_inv (ntext : Str) (th : Frac) (ft : Str) :
    ∀ (kws : List Str) (best : Option Str) (highest : Frac) (r : Str),
      scanKws ntext th ft kws best highest = Sum.inl r →
      r = ft ∧ ∃ kw ∈ kws, normalizeMatch kw <:+: ntext := by
  intro kws
  induction kws with
  | nil => intro best highest r h; simp [scanKws] at h
  | cons kw rest ih =>
    intro best highest r h
    simp only [scanKws] at h
    by_cases hkw : normalizeMatch kw <:+: ntext
    · rw [if_pos hkw] at h
      injection h with he
      exact ⟨he.symm, kw, by simp, hkw⟩
    · rw [if_neg hkw] at h
      by_cases hc : Frac.le th (partRatio ntext (normalizeMatch kw)) ∧
          Frac.lt highest (partRatio ntext (normalizeMatch kw))
      · rw [if_pos hc] at h
        obtain ⟨hr, k, hk, hik⟩ := ih _ _ r h
        exact ⟨hr, k, by simp [hk], hik⟩
      · rw [if_neg hc] at h
        obtain ⟨hr, k, hk, hik⟩ := ih _ _ r h
        exact ⟨hr, k, by simp [hk], hik⟩

lemma scanTypes_of_match (ntext : Str) (th : Frac) :
    ∀ (rules : List (Str × List Str)) (best : Option Str) (highest : Frac),
      (∃ pr ∈ rules, ∃ kw ∈ pr.2, normalizeMatch kw <:+: ntext) →
      ∃ ft kws, (ft, kws) ∈ rules ∧
        scanTypes ntext th rules best highest = some ft ∧
        ∃ kw ∈ kws, normalizeMatch kw <:+: ntext := by
  intro rules
  induction rules with
  | nil => intro best highest h; simp at h
  | cons pr rest ih =>
    intro best highest h
    obtain ⟨ft0, kws0⟩ := pr
    simp only [scanTypes]
    cases hscan : scanKws ntext th ft0 kws0 best highest with
    | inl r =>
      obtain ⟨hr, k, hk, hik⟩ := scanKws_inl_inv ntext th ft0 kws0 best highest r hscan
      subst hr
      exact ⟨r, kws0, by simp, rfl, k, hk, hik⟩
    | inr st =>
      obtain ⟨b, hi⟩ := st
      have hnom : ¬ ∃ kw ∈ kws0, normalizeMatch kw <:+: ntext := by
        intro hc
        rw [scanKws_inl_of_match ntext th ft0 kws0 best highest hc] at hscan
        exact Sum.noConfusion hscan
      have h2 : ∃ pr ∈ rest, ∃ kw ∈ pr.2, normalizeMatch kw <:+: ntext := by
        obtain ⟨q, hq, k, hk, hik⟩ := h
        rcases List.mem_cons.mp hq with rfl | hq2
        · exact absurd ⟨k, hk, hik⟩ hnom
        · exact ⟨q, hq2, k, hk, hik⟩
      obtain ⟨ft, kws, hmem, hres, hex⟩ := ih b hi h2
      exact ⟨ft, kws, by simp [hmem], hres, hex⟩

/-- C2: whenever some keyword of the rule map occurs (normalised) as a
literal substring of the normalised text, `determine_file_type` returns a
type one of whose keywords is such a substring — the exact substring match
wins regardless of the threshold and of any fuzzy scores. -/
theorem C2_exact_substring_priority (text : Str) (rules : List (Str × List Str)) (th : Int)
    (h : ∃ pr ∈ rules, ∃ kw ∈ pr.2, normalizeMatch kw <:+: normalizeMatch text) :
    ∃ ft kws, (ft, kws) ∈ rules ∧
      determine_file_type text rules th = some ft ∧
      ∃ kw ∈ kws, normalizeMatch kw <:+: normalizeMatch text := by
  exact scanTypes_of_match (normalizeMatch text) (fracOfInt th) rules none fracZero h

/-- Witness for C2: the text contains the sole keyword verbatim. -/
theorem C2_witness :
    ∃ ft kws, (ft, kws) ∈ [("FVS".data, ["factura".data])] ∧
      determine_file_type "hola factura".data [("FVS".data, ["factura".data])] 80 = some ft ∧
      ∃ kw ∈ kws, normalizeMatch kw <:+: normalizeMatch "hola factura".data :=
  C2_exact_substring_priority "hola factura".data [("FVS".data, ["factura".data])] 80
    (by decide)

lemma frac_lt_of_lt_of_le (a b c : Frac) (h1 : Frac.lt a b) (h2 : Frac.le b c) :
    Frac.lt a c := by
  have ha := a.den_pos
  have hb := b.den_pos
  have hc := c.den_pos
  simp only [Frac.lt, Frac.le] at h1 h2 ⊢
  nlinarith [mul_pos hb hc, mul_pos ha hb]

lemma scanKws_no_match (ntext : Str) (th : Frac) (ft : Str) :
    ∀ (kws : List Str) (best : Option Str) (highest : Frac),
      (∀ kw ∈ kws, ¬ (normalizeMatch kw <:+: ntext)) →
      scanKws ntext th ft kws best highest =
        Sum.inr ((kws.map (fun kw => (ft, partRatio ntext (normalizeMatch kw)))).foldl
          (updState th) (best, highest)) := by
  intro kws
  induction kws with
  | nil => intro best highest _; rfl
  | cons kw rest ih =>
    intro best highest h
    have hkw : ¬ (normalizeMatch kw <:+: ntext) := h kw (by simp)
    simp only [scanKws, List.map_cons, List.foldl_cons]
    rw [if_neg hkw]
    by_cases hc : Frac.le th (partRatio ntext (normalizeMatch kw)) ∧
        Frac.lt highest (partRatio ntext (normalizeMatch kw))
    · rw [if_pos hc, ih _ _ (fun k hk => h k (by simp [hk]))]
      have hupd : updState th (best, highest) (ft, partRatio ntext (normalizeMatch kw)) =
          (some ft, partRatio ntext (normalizeMatch kw)) := by
        simp [updState, hc]
      rw [hupd]
    · rw [if_neg hc, ih _ _ (fun k hk => h k (by simp [hk]))]
      have hupd : updState th (best, highest) (ft, partRatio ntext (normalizeMatch kw)) =
          (best, highest) := by
        simp only [updState]
        rw [if_neg hc]
      rw [hupd]

lemma candScores_cons (ntext : Str) (ft : Str) (kws : List Str)
    (rest : List (Str × List Str)) :
    candScores ntext ((ft, kws) :: rest) =
      kws.map (fun kw => (ft, partRatio ntext (normalizeMatch kw))) ++ candScores ntext rest := by
  simp [candScores]

lemma scanTypes_no_match (ntext : Str) (th : Frac) :
    ∀ (rules : List (Str × List Str)) (best : Option Str) (highest : Frac),
      (∀ pr ∈ rules, ∀ kw ∈ pr.2, ¬ (normalizeMatch kw <:+: ntext)) →
      scanTypes ntext th rules best highest =
        ((candScores ntext rules).foldl (updState th) (best, highest)).1 := by
  intro rules
  induction rules with
  | nil => intro best highest _; rfl
  | cons pr rest ih =>
    intro best highest h
    obtain ⟨ft, kws⟩ := pr
    simp only [scanTypes]
    rw [scanKws_no_match ntext th ft kws best highest
      (fun kw hk => h (ft, kws) (by simp) kw hk)]
    rw [candScores_cons, List.foldl_append]
    exact ih _ _ (fun q hq kw hk => h q (by simp [hq]) kw hk)

lemma firstMax_append_single (l : List (Str × Frac)) (c : Str × Frac) :
    firstMax (l ++ [c]) = some (match firstMax l with
      | none => c
      | some m => if Frac.lt m.2 c.2 then c else m) := by
  cases l with
  | nil => rfl
  | cons x xs =>
    simp only [firstMax, List.cons_append, List.foldl_append, List.foldl_cons, List.foldl_nil]

lemma foldl_updState_spec (th : Frac) (h0 : Frac.lt fracZero th) :
    ∀ cands : List (Str × Frac),
      cands.foldl (updState th) (none, fracZero) =
        (match firstMax (cands.filter (fun c => decide (Frac.le th c.2))) with
          | none => ((none : Option Str), fracZero)
          | some c => (some c.1, c.2)) := by
  intro cands
  induction cands using List.reverseRecOn with
  | nil => rfl
  | append_singleton l c ih =>
    rw [List.foldl_append]
    simp only [List.foldl_cons, List.foldl_nil]
    rw [ih, List.filter_append]
    by_cases hc : Frac.le th c.2
    · have hfc : List.filter (fun x => decide (Frac.le th x.2)) [c] = [c] := by
        simp [hc]
      rw [hfc, firstMax_append_single]
      cases hfm : firstMax (List.filter (fun x => decide (Frac.le th x.2)) l) with
      | none =>
        have hlt : Frac.lt fracZero c.2 := frac_lt_of_lt_of_le _ _ _ h0 hc
        simp [updState, hc, hlt]
      | some m =>
        by_cases hlt : Frac.lt m.2 c.2
        · simp [updState, hc, hlt]
        · simp [updState, hc, hlt]
    · have hfc : List.filter (fun x => decide (Frac.le th x.2)) [c] = [] := by
        simp [hc]
      rw [hfc, List.append_nil]
      cases hfm : firstMax (List.filter (fun x => decide (Frac.le th x.2)) l) with
      | none => simp [updState, hc]
      | some m => simp [updState, hc]

/-- C3: with no exact substring match anywhere in the rules and a positive
threshold, `determine_file_type` agrees with the specification-side
selector: among all fuzzy candidates (type, partial-ratio score) in scan
order, the candidates below the threshold are discarded (threshold
inclusive), the first-seen candidate of maximal score wins (a later
candidate replaces the best only with a strictly greater score, regardless
of rule-map order), and the result is `None` when no candidate reaches the
threshold. -/
theorem C3_fuzzy_best_candidate (text : Str) (rules : List (Str × List Str)) (th : Int)
    (hth : 0 < th)
    (hno : ∀ pr ∈ rules, ∀ kw ∈ pr.2, ¬ (normalizeMatch kw <:+: normalizeMatch text)) :
    determine_file_type text rules th =
      specBestFuzzy (fracOfInt th) (fuzzyCandidates text rules) := by
  have h0 : Frac.lt fracZero (fracOfInt th) := by
    simp only [Frac.lt, fracZero, fracOfInt]
    omega
  rw [determine_file_type,
    scanTypes_no_match (normalizeMatch text) (fracOfInt th) rules none fracZero hno,
    foldl_updState_spec (fracOfInt th) h0]
  rw [specBestFuzzy]
  cases hfm : firstMax ((fuzzyCandidates text rules).filter
      (fun c => decide (Frac.le (fracOfInt th) c.2))) with
  | none =>
    have : candScores (normalizeMatch text) rules = fuzzyCandidates text rules := rfl
    rw [this, hfm]
    rfl
  | some m =>
    have : candScores (normalizeMatch text) rules = fuzzyCandidates text rules := rfl
    rw [this, hfm]
    rfl

/-- Witness for C3 at a concrete fuzzy-only match ("abcd" against text
"abc" scores 100 without being a substring of it). -/
theorem C3_witness :
    determine_file_type "abc".data [("A".data, ["abcd".data])] 80 =
      specBestFuzzy (fracOfInt 80) (fuzzyCandidates "abc".data [("A".data, ["abcd".data])]) :=
  C3_fuzzy_best_candidate "abc".data [("A".data, ["abcd".data])] 80 (by decide) (by decide)

/-- C1: the group-and-merge stage does not exclude a page whose document
type is unresolved.  At the concrete failing input — folder `ELE46339`
holding one readable page `a.pdf` whose text "zzz" matches no keyword —
`process_pdf_file` logs "Skipping" but still returns a truthy dictionary
with `file_type = None`; the page is therefore grouped under the key
`None`, merged into `combined_None.pdf`, renamed, and its source file is
deleted, contradicting the claim that such a page is only reported and
left in place on disk. -/
theorem C1_unresolved_page_merged_and_deleted :
    process_pdf_file fsC1 epsC1 "root/ELE46339/a.pdf".data =
      some { file_type := none, invoice := some "46339".data, patient_id := none }
    ∧ group_pages fsC1 epsC1 ["root/ELE46339/a.pdf".data] =
        [(none, ["root/ELE46339/a.pdf".data])]
    ∧ (combine_and_rename_folder epsC1 hospC1 fsC1
        ["root/ELE46339/a.pdf".data]).1 "root/ELE46339/a.pdf".data = none
    ∧ (combine_and_rename_folder epsC1 hospC1 fsC1
        ["root/ELE46339/a.pdf".data]).1 "root/ELE46339/None".data =
          some [['z', 'z', 'z']] := by
  have hct : clean_text (some ['z', 'z', 'z']) = ['z', 'z', 'z'] := by
    have h := cleanSub_of_noTwoWs ['z', 'z', 'z'] (by decide)
    simpa [clean_text] using h
  have hft : process_text_for_file_type (some ['z', 'z', 'z']) epsC1 = none := by
    rw [process_text_for_file_type, hct]
    decide
  have hpp : process_pdf_file fsC1 epsC1 "root/ELE46339/a.pdf".data =
      some { file_type := none, invoice := some "46339".data, patient_id := none } := by
    have hext : extract_text_from_pdf fsC1 "root/ELE46339/a.pdf".data =
        some ['z', 'z', 'z'] := by decide
    simp only [process_pdf_file, hext, hft]
    have hinv : extract_invoice_number (basename (dirname "root/ELE46339/a.pdf".data)) =
        some "46339".data := by decide
    have hpid : extract_patient_id ['z', 'z', 'z'] = none := by decide
    rw [hinv, hpid]
  have hgp : group_pages fsC1 epsC1 ["root/ELE46339/a.pdf".data] =
      [(none, ["root/ELE46339/a.pdf".data])] := by
    simp only [group_pages, List.foldl_cons, List.foldl_nil, hpp]
    decide
  have hstage : combine_and_rename_folder epsC1 hospC1 fsC1
      ["root/ELE46339/a.pdf".data] =
      combine_pdfs_by_type epsC1 hospC1 fsC1 [(none, ["root/ELE46339/a.pdf".data])] := by
    simp only [combine_and_rename_folder, hgp]
    rfl
  refine ⟨hpp, hgp, ?_, ?_⟩
  · rw [hstage]
    decide
  · rw [hstage]
    decide
